import Mathlib

/-!
Verification development for the MapOptimizer plan evaluation and selection
engine (`motion/optimizers/map_optimizer/optimizer.py`).

The Python code is shallowly embedded: dictionaries become association lists
that preserve insertion order (Python 3.7+ dict semantics), the external
collaborators (runner, oracle, plan generators, pairwise judge) become fields
of an `Env` record, the nondeterministic completion order of a batch of
futures becomes an `order` reordering function, and the per-task outcome of
`Evaluator._evaluate_plan` under the thread pool (a returned triple or a
raised exception) becomes an `EvalOutcome` value per plan name.  Python object
identity (`id(x)`) is modelled by an `addr : Nat` tag on records, so that
`copy.deepcopy` can be modelled as "same field content, fresh address".
-/

namespace MapOpt

/-- A record's field map: a Python dict from string keys to stringified values. -/
abbrev FieldMap := List (String × String)

/-- An input record together with an identity tag modelling Python object
identity; `copy.deepcopy` yields equal `fields` at a fresh `addr`. -/
structure TaggedRecord where
  addr : Nat
  fields : FieldMap
deriving DecidableEq

/-- The `(score, runtime, output)` triple returned by `_evaluate_plan`. -/
structure EvalResult where
  score : Int
  runtime : Int
  output : List FieldMap
deriving DecidableEq

/-- An operation configuration (`op_config`): at minimum a `name` and a `type`. -/
structure OpConfig where
  name : String
  ty : String
  params : FieldMap
deriving DecidableEq

/-- A plan is an ordered list of operation configurations. -/
abbrev Plan := List OpConfig

/-- A JSON-ish value, enough to model the assessment dict returned by the
oracle, with Python truthiness. -/
inductive JVal where
  | bool (b : Bool)
  | num (n : Int)
  | str (s : String)
  | null
deriving DecidableEq

/-- Python truthiness of a `JVal` (`bool(v)`). -/
def JVal.truthy : JVal → Bool
  | .bool b => b
  | .num n => n != 0
  | .str s => s ≠ ""
  | .null => false

/-- Lookup in an insertion-ordered dict: `d.get(k)` / `d[k]`. -/
def dget? (d : List (String × α)) (k : String) : Option α :=
  (d.find? (fun p => p.1 == k)).map (·.2)

/-- Lookup with default: `d.get(k, v0)`. -/
def dgetD (d : List (String × α)) (k : String) (v0 : α) : α :=
  (dget? d k).getD v0

/-- Dict assignment `d[k] = v`: replace the value in place if the key is
present (keeping its position), otherwise append at the end — Python 3.7+
insertion-order semantics. -/
def dinsert : List (String × α) → String → α → List (String × α)
  | [], k, v => [(k, v)]
  | p :: d, k, v => if p.1 == k then (k, v) :: d else p :: dinsert d k v

/-- The keys of a dict, in insertion order. -/
def keys (d : List (String × α)) : List String := d.map (·.1)

/-- Build a dict from a list of key/value pairs by successive assignment:
models `{k1: v1, k2: v2, **m1, **m2, ...}`. -/
def dictOfList (l : List (String × α)) : List (String × α) :=
  l.foldl (fun d p => dinsert d p.1 p.2) []

theorem dget?_cons (p : String × α) (d : List (String × α)) (k : String) :
    dget? (p :: d) k = if p.1 = k then some p.2 else dget? d k := by
  by_cases h : p.1 = k
  · simp [dget?, List.find?, h]
  · have hb : (p.1 == k) = false := by simp [h]
    simp [dget?, List.find?, hb, h]

theorem dget?_dinsert_self (d : List (String × α)) (k : String) (v : α) :
    dget? (dinsert d k v) k = some v := by
  induction d with
  | nil => simp [dinsert, dget?_cons]
  | cons p d ih =>
    by_cases h : p.1 = k
    · simp [dinsert, h, dget?_cons]
    · simp [dinsert, h, dget?_cons, ih]

theorem dget?_dinsert_ne (d : List (String × α)) (k k' : String) (v : α)
    (hne : k' ≠ k) : dget? (dinsert d k v) k' = dget? d k' := by
  induction d with
  | nil => simp [dinsert, dget?_cons, dget?, Ne.symm hne]
  | cons p d ih =>
    by_cases h : p.1 = k
    · simp [dinsert, h, dget?_cons, Ne.symm hne]
    · simp [dinsert, h, dget?_cons, ih]

theorem mem_dinsert {p : String × α} {d : List (String × α)} {k : String} {v : α}
    (h : p ∈ dinsert d k v) : p = (k, v) ∨ p ∈ d := by
  induction d with
  | nil => simpa [dinsert] using h
  | cons q d ih =>
    by_cases hq : q.1 = k
    · simp [dinsert, hq] at h
      rcases h with h | h
      · exact Or.inl h
      · exact Or.inr (List.mem_cons_of_mem _ h)
    · simp [dinsert, hq] at h
      rcases h with h | h
      · exact Or.inr (by simp [h])
      · rcases ih h with h2 | h2
        · exact Or.inl h2
        · exact Or.inr (List.mem_cons_of_mem _ h2)

theorem mem_dinsert_of_mem {d : List (String × α)} {k' : String} {v' : α}
    {k : String} (v : α) (h : (k', v') ∈ d) (hne : k' ≠ k) :
    (k', v') ∈ dinsert d k v := by
  induction d with
  | nil => simp at h
  | cons p d ih =>
    by_cases hp : p.1 = k
    · simp [dinsert, hp]
      rcases List.mem_cons.mp h with h1 | h1
      · exact absurd ((congrArg Prod.fst h1).trans hp) hne
      · exact Or.inr h1
    · rcases List.mem_cons.mp h with h1 | h1
      · subst h1
        simp [dinsert, hne]
      · simp [dinsert, hp]
        exact Or.inr (ih h1)

theorem mem_of_dget? {d : List (String × α)} {k : String} {v : α}
    (h : dget? d k = some v) : (k, v) ∈ d := by
  induction d with
  | nil => simp [dget?] at h
  | cons p d ih =>
    rw [dget?_cons] at h
    by_cases hp : p.1 = k
    · simp [hp] at h
      rcases p with ⟨p1, p2⟩
      simp at hp h
      simp [hp, h]
    · simp [hp] at h
      exact List.mem_cons_of_mem _ (ih h)

theorem mem_keys_iff_exists {d : List (String × α)} {k : String} :
    k ∈ keys d ↔ ∃ v, (k, v) ∈ d := by
  constructor
  · intro h
    rcases List.mem_map.mp h with ⟨⟨a, b⟩, hp, hk⟩
    exact ⟨b, by simpa [← hk] using hp⟩
  · rintro ⟨v, hv⟩
    exact List.mem_map.mpr ⟨(k, v), hv, rfl⟩

theorem mem_keys_dinsert_self (d : List (String × α)) (k : String) (v : α) :
    k ∈ keys (dinsert d k v) :=
  mem_keys_iff_exists.mpr ⟨v, mem_of_dget? (dget?_dinsert_self d k v)⟩

theorem mem_keys_dinsert_of_mem {d : List (String × α)} {k' : String}
    (k : String) (v : α) (h : k' ∈ keys d) : k' ∈ keys (dinsert d k v) := by
  by_cases hne : k' = k
  · exact hne ▸ mem_keys_dinsert_self d k v
  · rcases mem_keys_iff_exists.mp h with ⟨v', hv⟩
    exact mem_keys_iff_exists.mpr ⟨v', mem_dinsert_of_mem v hv hne⟩

/-- What one `_evaluate_plan` task hands back through its future: the
`(score, runtime, output)` triple it returned, or the exception it raised.
There is no timeout outcome: the `as_completed` loop of line 233 yields only
finished futures, so `future.result(timeout=self.timeout)` at line 236
returns or re-raises immediately and its `TimeoutError` branch (line 238)
never fires for a slow task — however long the task ran, its result is
collected (see `collectCompleted`). -/
inductive EvalOutcome where
  | ok (r : EvalResult)
  | failed (msg : String)
deriving DecidableEq

/-- Observable side effects of `optimize()` on its collaborators, in
program order: the baseline run, validator-prompt generation, the baseline
assessment, the five candidate generators, the submission of an evaluation
task per plan, and the pairwise tournament. -/
inductive Event where
  | runBaseline
  | genValidatorPrompt
  | assessOperation
  | genImprovedPrompt
  | genChunkSizePlans
  | genGleaningPlans
  | genChainPlans
  | genParallelPlans
  | evalPlan (name : String)
  | pairwiseCompare (names : List String)
deriving DecidableEq

/-- Insert an entry into a list already sorted by score descending, before the
first entry of score less than or equal to its own.  Folding this over a list
yields exactly Python's stable `sorted(..., key=lambda x: x[1][0],
reverse=True)`: ties keep their original relative order. -/
def insertDesc (x : String × EvalResult) :
    List (String × EvalResult) → List (String × EvalResult)
  | [] => [x]
  | y :: ys => if y.2.score ≤ x.2.score then x :: y :: ys else y :: insertDesc x ys

/-- Stable sort by score descending (line 274:
`sorted(results.items(), key=lambda x: x[1][0], reverse=True)`). -/
def sortByScoreDesc : List (String × EvalResult) → List (String × EvalResult)
  | [] => []
  | x :: xs => insertDesc x (sortByScoreDesc xs)

/-- The tie-preserving shortlist (lines 276-288): take the top 6 of the
sorted results; when there are 6 of them, additionally keep every later
entry whose score equals the 6th-place score.  `none` models the
`float("-inf")` placeholder used when fewer than 6 plans survive, which
compares unequal to every finite score. -/
def filtered_results (sorted_results : List (String × EvalResult)) :
    List (String × EvalResult) :=
  let top_plans := sorted_results.take 6
  let tail_score : Option Int :=
    if top_plans.length = 6 then top_plans.getLast?.map (·.2.score) else none
  top_plans ++ (sorted_results.drop top_plans.length).filter
    (fun item => tail_score == some item.2.score)

/-- Python `max(l, key=key)` accumulator: a later element replaces the current
best only when its key is strictly greater, so the first-seen maximum wins. -/
def maxByKeyAux (key : α → Int) (best : α) : List α → α
  | [] => best
  | x :: xs => maxByKeyAux key (if key best < key x then x else best) xs

/-- Python `max(l, key=key)` over an insertion-ordered collection; `none`
models the `ValueError` on an empty collection. -/
def maxByKey? (key : α → Int) : List α → Option α
  | [] => none
  | x :: xs => some (maxByKeyAux key x xs)

/-- Line 295: `max(pairwise_rankings, key=pairwise_rankings.get)` — the first
plan name (in tally-map iteration order) with the maximum win tally. -/
def argmaxTally (tally : List (String × Int)) : Option String :=
  (maxByKey? (fun p => p.2) tally).map (·.1)

/-- Line 301: `max(results, key=lambda x: results[x][0])` — the first plan
name (in results-map iteration order) with the maximum score. -/
def argmaxByScore (results : List (String × EvalResult)) : Option String :=
  (maxByKey? (fun p => p.2.score) results).map (·.1)

/-- First-seen-maximum characterisation: `x` occurs in `l`, every earlier
element has a strictly smaller key and every later element has a key at most
`key x`. -/
def IsFirstMaxBy (key : α → Int) (l : List α) (x : α) : Prop :=
  ∃ l₁ l₂, l = l₁ ++ x :: l₂ ∧ (∀ y ∈ l₁, key y < key x) ∧ (∀ y ∈ l₂, key y ≤ key x)

/-- Structural worker for `chunkList`: the fuel argument only bounds the
recursion depth (one batch consumes at least one element, so a fuel of the
list's length is always enough) and keeps the definition kernel-reducible. -/
def chunkListFuel (k : Nat) : Nat → List α → List (List α)
  | 0, _ => []
  | _ + 1, [] => []
  | fuel + 1, x :: xs => (x :: xs).take (k + 1) :: chunkListFuel k fuel (xs.drop k)

/-- Partition a list into consecutive batches of `k + 1` elements (line 217:
`plans_list[i : i + self._num_plans_to_evaluate_in_parallel]`). -/
def chunkList (k : Nat) (l : List α) : List (List α) :=
  chunkListFuel k l.length l

/-- Collect one batch's results in future-completion order (lines 233-249):
a task that returned a triple is recorded with `results[plan_name] = ...`;
a raised exception leaves the map untouched and the loop continues. -/
def collectBatch (outcome : String → EvalOutcome)
    (acc : List (String × EvalResult)) : List String → List (String × EvalResult)
  | [] => acc
  | n :: ns =>
    match outcome n with
    | .ok r => collectBatch outcome (dinsert acc n r) ns
    | _ => collectBatch outcome acc ns

/-- The whole evaluation phase (lines 215-249): plans are processed in
sequential batches of 5; within a batch, futures complete in the order given
by `order` (modelling `as_completed`); successful triples are accumulated
into the `results` dict. -/
def evalResultsMap (order : List String → List String)
    (outcome : String → EvalOutcome) (plans : List (String × Plan)) :
    List (String × EvalResult) :=
  (chunkList 4 (keys plans)).foldl
    (fun acc batch => collectBatch outcome acc (order batch)) []

/-- Lines 251-256: replace the runtime in the `no_change` entry by the
synchronously measured baseline runtime, keeping the evaluated score and
output.  `none` models the `KeyError` raised when `no_change` is absent from
`results` (its own pool evaluation raised). -/
def spliceNoChange (results : List (String × EvalResult)) (rt : Int) :
    Option (List (String × EvalResult)) :=
  (dget? results "no_change").map fun r0 =>
    dinsert results "no_change" ⟨r0.score, rt, r0.output⟩

/-- Winner selection (lines 290-302): with more than one shortlisted plan,
run the pairwise tournament over exactly the shortlist and take the
first-seen maximum tally; otherwise give every surviving plan a zero tally
and take the shortlist's sole member, or — if the shortlist is empty — the
first-seen highest-scored plan among all results.  Returns the chosen plan
name (or `none` for Python's `ValueError` on an empty `max`) together with
`pairwise_rankings`. -/
def selectBestPlanName (results : List (String × EvalResult))
    (tournament : List (String × EvalResult) → List (String × Int)) :
    Option String × List (String × Int) :=
  let sorted_results := sortByScoreDesc results
  let fr := filtered_results sorted_results
  if fr.length > 1 then
    let tally := tournament fr
    (argmaxTally tally, tally)
  else
    let tally := results.map fun p => (p.1, (0 : Int))
    (match fr with
     | f :: _ => some f.1
     | [] => argmaxByScore results, tally)

/-- Line 164: `assessment.get("needs_improvement", True)` under Python
truthiness — a missing key defaults to needing improvement. -/
def needsImprovement (assessment : List (String × JVal)) : Bool :=
  (dgetD assessment "needs_improvement" (JVal.bool true)).truthy

/-- `copy.deepcopy` on a list of records: identical field content at fresh,
consecutive addresses starting from `base`. -/
def deepcopyRecords (base : Nat) : List TaggedRecord → List TaggedRecord
  | [] => []
  | r :: rs => ⟨base, r.fields⟩ :: deepcopyRecords (base + 1) rs

/-- The loop of lines 133-134 starting at record index `k`: set
`input_data[i]["_map_opt_id"] = str(uuid.uuid4())` on each record, with the
`i`-th generated uuid modelled as `uuid i`. -/
def addMapOptIds (uuid : Nat → String) (k : Nat) :
    List TaggedRecord → List TaggedRecord
  | [] => []
  | r :: rs =>
    ⟨r.addr, dinsert r.fields "_map_opt_id" (uuid k)⟩ :: addMapOptIds uuid (k + 1) rs

/-- Lines 131-134: deep-copy the caller's input, then tag every record of the
copy with a fresh `_map_opt_id`. -/
def tagInputData (uuid : Nat → String) (base : Nat)
    (input_data : List TaggedRecord) : List TaggedRecord :=
  addMapOptIds uuid 0 (deepcopyRecords base input_data)

/-- Line 212: `num_evaluations = min(5, len(input_data))`. -/
def numEvaluations (input_data : List TaggedRecord) : Nat :=
  min 5 input_data.length

/-- The futures dict construction of lines 222-232, one batch of plan names:
each submitted task receives its own `copy.deepcopy(evaluation_samples)`,
modelled as a fresh address range per task (`len0` is the sample count, used
to space the ranges). -/
def submittedSamples (base len0 : Nat) (samples : List TaggedRecord) :
    List String → List (String × List TaggedRecord)
  | [] => []
  | n :: ns =>
    (n, deepcopyRecords base samples) :: submittedSamples (base + len0) len0 samples ns

/-- Per-task sample copies for one batch of plan names. -/
def submitBatchSamples (base : Nat) (samples : List TaggedRecord)
    (names : List String) : List (String × List TaggedRecord) :=
  submittedSamples base samples.length samples names

/-- One evaluation task submitted to the pool for one batch: its plan name,
the wall-clock duration in seconds the task runs for, and what
`_evaluate_plan` hands back through the future — the triple it returned, or
the exception it raised. -/
structure TaskExec where
  name : String
  duration : Nat
  result : Except String EvalResult

/-- Insert a task into a list sorted by increasing duration (later-finishing
tasks later). -/
def insertByDuration (t : TaskExec) : List TaskExec → List TaskExec
  | [] => [t]
  | u :: us =>
    if u.duration ≤ t.duration then u :: insertByDuration t us
    else t :: u :: us

/-- `concurrent.futures.as_completed(futures)` at line 233, with task
durations made explicit: it yields the batch's futures in completion order
(modelled as sorting by duration), and it yields each future only once that
future is finished — it blocks until then, with no timeout of its own. -/
def asCompleted : List TaskExec → List TaskExec
  | [] => []
  | t :: ts => insertByDuration t (asCompleted ts)

/-- The body of the `as_completed` loop (lines 233-249) over the finished
futures, with the duration model made explicit.  Because every yielded
future is already finished, `future.result(timeout=self.timeout)` at line
236 returns the task's triple, or re-raises the task's own exception,
immediately: the `timeout` argument can never produce a `TimeoutError`
here, whatever `duration` the task had, so it is accepted and ignored and
every successful task — however slow — is recorded in `results`. -/
def collectCompleted (timeout : Nat) (acc : List (String × EvalResult)) :
    List TaskExec → List (String × EvalResult)
  | [] => acc
  | t :: ts =>
    match t.result with
    | .ok r => collectCompleted timeout (dinsert acc t.name r) ts
    | .error _ => collectCompleted timeout acc ts

/-- A task that runs for 11 seconds — beyond the default 10-second timeout —
and returns a triple. -/
def slowTask : TaskExec := ⟨"slow", 11, .ok ⟨9, 11, []⟩⟩

/-- A batch holding a fast `no_change` task and the 11-second `slow` task. -/
def batchC5 : List TaskExec :=
  [⟨"no_change", 4, .ok ⟨2, 4, []⟩⟩, slowTask]

/-- Modelled from the spec: `PlanGenerator.reduce_optimizer_cost` lives in
`plan_generators.py`, which is not under `src/`; per the spec (§4.3 step 9)
it accumulates the monetary cost of plan-generation-time model calls, hence
its value is 0 before any candidate generator has run. -/
def initialReduceOptimizerCost : Int := 0

/-- The `MapOptimizer.__init__` defaults: `timeout: int = 10` and
`self._num_plans_to_evaluate_in_parallel = 5`. -/
structure MapOptimizerDefaults where
  timeout : Nat := 10
  numPlansToEvaluateInParallel : Nat := 5

/-- The injected collaborators and sources of nondeterminism that
`MapOptimizer.optimize` interacts with. -/
structure Env where
  runOperation : OpConfig → List TaggedRecord → List FieldMap
  noChangeRuntime : Int
  genValidatorPrompt : OpConfig → List TaggedRecord → List FieldMap → String
  assessOp : OpConfig → List TaggedRecord → List FieldMap → String → List (String × JVal)
  improvedPromptPlan : OpConfig → List (String × JVal) → List TaggedRecord → Plan
  chunkSizePlans : List (String × Plan)
  gleaningPlans : List (String × Plan)
  chainPlans : List (String × Plan)
  parallelPlans : List (String × Plan)
  generationCost : Int
  select : List TaggedRecord → Nat → List TaggedRecord
  order : List String → List String
  outcome : String → EvalOutcome
  pairwise : List (String × EvalResult) → String → OpConfig → List TaggedRecord → List (String × Int)
  uuid : Nat → String
  freshBase : Nat
  isFilter : Bool

/-- The `optimize()` protocol (lines 84-324), as a pure function of the
environment.  Returns either the `(best plan, best output, cost)` triple or
the message of the uncaught exception that aborts the call, together with
the ordered log of collaborator invocations. -/
def optimize (env : Env) (op_config : OpConfig) (input_data : List TaggedRecord) :
    Except String (Plan × List FieldMap × Int) × List Event :=
  let input2 := tagInputData env.uuid env.freshBase input_data
  let output_data := env.runOperation op_config input2
  let validator_prompt := env.genValidatorPrompt op_config input2 output_data
  let assessment := env.assessOp op_config input2 output_data validator_prompt
  let ev0 : List Event := [.runBaseline, .genValidatorPrompt, .assessOperation]
  if needsImprovement assessment = false then
    (.ok ([op_config], output_data, initialReduceOptimizerCost), ev0)
  else
    let improved_prompt_plan := env.improvedPromptPlan op_config assessment input2
    let chain_plans := if env.isFilter then [] else env.chainPlans
    let parallel_plans := if env.isFilter then [] else env.parallelPlans
    let ev1 := ev0 ++ [.genImprovedPrompt, .genChunkSizePlans, .genGleaningPlans]
      ++ (if env.isFilter then [] else [Event.genChainPlans, Event.genParallelPlans])
    let plans_to_evaluate := dictOfList
      ([("improved_instructions", improved_prompt_plan), ("no_change", [op_config])]
        ++ env.chunkSizePlans ++ env.gleaningPlans ++ chain_plans ++ parallel_plans)
    let evaluation_samples := env.select input2 (numEvaluations input2)
    let results0 := evalResultsMap env.order env.outcome plans_to_evaluate
    let ev2 := ev1 ++ (keys plans_to_evaluate).map Event.evalPlan
    match spliceNoChange results0 env.noChangeRuntime with
    | none => (.error "KeyError: no_change", ev2)
    | some results =>
      let fr := filtered_results (sortByScoreDesc results)
      let sel := selectBestPlanName results
        (fun f => env.pairwise f validator_prompt op_config evaluation_samples)
      let ev3 := if fr.length > 1 then ev2 ++ [Event.pairwiseCompare (keys fr)] else ev2
      match sel.1 with
      | none => (.error "ValueError: max of empty collection", ev3)
      | some best_plan_name =>
        match dget? results best_plan_name, dget? plans_to_evaluate best_plan_name with
        | some rb, some pb => (.ok (pb, rb.output, env.generationCost), ev3)
        | _, _ => (.error "KeyError: best plan", ev3)

/-! Concrete instances used to exercise the definitions. -/

/-- An evaluation result with a given score, unit runtime and empty output. -/
def mkER (s : Int) : EvalResult := ⟨s, 1, []⟩

/-- Seven scored plans with scores `[9, 9, 8, 7, 6, 5, 5]`. -/
def ex7 : List (String × EvalResult) :=
  [("p1", mkER 9), ("p2", mkER 9), ("p3", mkER 8), ("p4", mkER 7),
   ("p5", mkER 6), ("p6", mkER 5), ("p7", mkER 5)]

/-- A two-plan results map. -/
def ex2 : List (String × EvalResult) := [("a", mkER 4), ("b", mkER 2)]

/-- A minimal operation configuration. -/
def cfg0 : OpConfig := ⟨"op", "map", []⟩

/-- A single caller-side input record. -/
def rec0 : TaggedRecord := ⟨0, [("k", "v")]⟩

/-- A baseline environment: filter operation (so no chain/parallel
generators), no extra candidate plans, every evaluation succeeding with
score 1, a zero pairwise tally, and synchronous baseline runtime 3. -/
def baseEnv : Env where
  runOperation := fun _ _ => [[("base", "out")]]
  noChangeRuntime := 3
  genValidatorPrompt := fun _ _ _ => "v"
  assessOp := fun _ _ _ _ => []
  improvedPromptPlan := fun c _ _ => [c]
  chunkSizePlans := []
  gleaningPlans := []
  chainPlans := []
  parallelPlans := []
  generationCost := 7
  select := fun l k => l.take k
  order := id
  outcome := fun _ => .ok ⟨1, 1, [[("o", "1")]]⟩
  pairwise := fun fr _ _ _ => fr.map (fun p => (p.1, 0))
  uuid := fun i => toString i
  freshBase := 100
  isFilter := true

/-- An environment whose baseline assessment explicitly reports
`needs_improvement: false`. -/
def envGateFalse : Env :=
  { baseEnv with assessOp := fun _ _ _ _ => [("needs_improvement", JVal.bool false)] }

/-- An environment in which the `no_change` evaluation task itself raises,
while every other task succeeds. -/
def envC3 : Env := { baseEnv with
  outcome := fun n => if n = "no_change" then .failed "boom" else .ok ⟨1, 1, []⟩ }

/-- An environment in which every candidate evaluation except `no_change`
raises. -/
def envC4 : Env := { baseEnv with
  outcome := fun n => if n = "no_change" then .ok ⟨2, 4, [[("a", "b")]]⟩ else .failed "x" }

/-- The plans dict built by `optimize` under `envC3` for `cfg0`. -/
def plansC3 : List (String × Plan) :=
  dictOfList [("improved_instructions", [cfg0]), ("no_change", [cfg0])]

/-! Helper lemmas. -/

theorem perm_insertDesc (x : String × EvalResult) (l : List (String × EvalResult)) :
    (insertDesc x l).Perm (x :: l) := by
  induction l with
  | nil => simp [insertDesc]
  | cons y ys ih =>
    by_cases h : y.2.score ≤ x.2.score
    · simp [insertDesc, h]
    · simp only [insertDesc, if_neg h]
      exact (ih.cons y).trans (List.Perm.swap x y ys)

theorem perm_sortByScoreDesc (l : List (String × EvalResult)) :
    (sortByScoreDesc l).Perm l := by
  induction l with
  | nil => simp [sortByScoreDesc]
  | cons x xs ih =>
    exact (perm_insertDesc x (sortByScoreDesc xs)).trans (ih.cons x)

theorem length_sortByScoreDesc (l : List (String × EvalResult)) :
    (sortByScoreDesc l).length = l.length :=
  (perm_sortByScoreDesc l).length_eq

theorem collectBatch_entries {outcome : String → EvalOutcome}
    {acc : List (String × EvalResult)} {ns : List String}
    (hacc : ∀ p ∈ acc, outcome p.1 = .ok p.2) :
    ∀ p ∈ collectBatch outcome acc ns, outcome p.1 = .ok p.2 := by
  induction ns generalizing acc with
  | nil => simpa [collectBatch] using hacc
  | cons n ns ih =>
    intro p hp
    simp only [collectBatch] at hp
    cases hout : outcome n with
    | ok r =>
      rw [hout] at hp
      refine ih ?_ p hp
      intro q hq
      rcases mem_dinsert hq with h | h
      · rw [h]; exact hout
      · exact hacc q h
    | failed m => rw [hout] at hp; exact ih hacc p hp

theorem collectBatch_keys_mono {outcome : String → EvalOutcome}
    {acc : List (String × EvalResult)} {ns : List String} {k : String}
    (h : k ∈ keys acc) : k ∈ keys (collectBatch outcome acc ns) := by
  induction ns generalizing acc with
  | nil => simpa [collectBatch] using h
  | cons n ns ih =>
    simp only [collectBatch]
    cases hout : outcome n with
    | ok r => exact ih (mem_keys_dinsert_of_mem n r h)
    | failed m => exact ih h

theorem collectBatch_mem_of_ok {outcome : String → EvalOutcome}
    {acc : List (String × EvalResult)} {ns : List String} {n : String}
    {r : EvalResult} (hn : n ∈ ns) (hout : outcome n = .ok r) :
    n ∈ keys (collectBatch outcome acc ns) := by
  induction ns generalizing acc with
  | nil => simp at hn
  | cons m ns ih =>
    rcases List.mem_cons.mp hn with h | h
    · subst h
      simp only [collectBatch, hout]
      exact collectBatch_keys_mono (mem_keys_dinsert_self acc n r)
    · simp only [collectBatch]
      cases houtm : outcome m with
      | ok r2 => exact ih h
      | failed msg => exact ih h

theorem collectBatch_keys_origin {outcome : String → EvalOutcome}
    {acc : List (String × EvalResult)} {ns : List String} {k : String}
    (h : k ∈ keys (collectBatch outcome acc ns)) : k ∈ keys acc ∨ k ∈ ns := by
  induction ns generalizing acc with
  | nil => exact Or.inl (by simpa [collectBatch] using h)
  | cons n ns ih =>
    simp only [collectBatch] at h
    cases hout : outcome n with
    | ok r =>
      rw [hout] at h
      rcases ih h with h2 | h2
      · rcases mem_keys_iff_exists.mp h2 with ⟨v, hv⟩
        rcases mem_dinsert hv with h3 | h3
        · exact Or.inr (List.mem_cons.mpr (Or.inl (congrArg Prod.fst h3)))
        · exact Or.inl (mem_keys_iff_exists.mpr ⟨v, h3⟩)
      · exact Or.inr (List.mem_cons_of_mem _ h2)
    | failed m =>
      rw [hout] at h
      rcases ih h with h2 | h2
      · exact Or.inl h2
      · exact Or.inr (List.mem_cons_of_mem _ h2)

theorem mem_of_mem_chunkListFuel {k : Nat} :
    ∀ {fuel : Nat} {l : List α} {c : List α},
    c ∈ chunkListFuel k fuel l → ∀ x ∈ c, x ∈ l := by
  intro fuel
  induction fuel with
  | zero => intro l c hc; simp [chunkListFuel] at hc
  | succ f ih =>
    intro l c hc
    cases l with
    | nil => simp [chunkListFuel] at hc
    | cons y ys =>
      simp only [chunkListFuel, List.mem_cons] at hc
      rcases hc with h | h
      · subst h
        exact fun x hx => List.mem_of_mem_take hx
      · intro x hx
        exact List.mem_cons_of_mem _ (List.mem_of_mem_drop (ih h x hx))

theorem mem_of_mem_chunkList {k : Nat} {l : List α} {c : List α}
    (hc : c ∈ chunkList k l) : ∀ x ∈ c, x ∈ l :=
  mem_of_mem_chunkListFuel hc

theorem exists_chunk_of_mem_fuel {k : Nat} :
    ∀ (fuel : Nat) (l : List α) (x : α), l.length ≤ fuel → x ∈ l →
    ∃ c ∈ chunkListFuel k fuel l, x ∈ c := by
  intro fuel
  induction fuel with
  | zero =>
    intro l x hlen hx
    rw [List.length_eq_zero.mp (Nat.le_zero.mp hlen)] at hx
    simp at hx
  | succ f ih =>
    intro l x hlen hx
    cases l with
    | nil => simp at hx
    | cons y ys =>
      rcases List.mem_cons.mp hx with h | h
      · exact ⟨(y :: ys).take (k + 1), by simp [chunkListFuel], by subst h; simp⟩
      · have hsplit : x ∈ ys.take k ++ ys.drop k := by
          rw [List.take_append_drop]; exact h
        rcases List.mem_append.mp hsplit with h2 | h2
        · refine ⟨(y :: ys).take (k + 1), by simp [chunkListFuel], ?_⟩
          simpa using Or.inr h2
        · have hlen2 : (ys.drop k).length ≤ f := by
            simp only [List.length_cons] at hlen
            simp [List.length_drop]
            omega
          rcases ih (ys.drop k) x hlen2 h2 with ⟨c, hc, hxc⟩
          exact ⟨c, by simp [chunkListFuel]; exact Or.inr hc, hxc⟩

theorem exists_chunk_of_mem {k : Nat} {l : List α} {x : α} (hx : x ∈ l) :
    ∃ c ∈ chunkList k l, x ∈ c :=
  exists_chunk_of_mem_fuel l.length l x (le_refl _) hx

theorem foldl_collect_entries (order : List String → List String)
    (outcome : String → EvalOutcome) (chunks : List (List String)) :
    ∀ acc, (∀ p ∈ acc, outcome p.1 = .ok p.2) →
    ∀ p ∈ chunks.foldl (fun a b => collectBatch outcome a (order b)) acc,
      outcome p.1 = .ok p.2 := by
  induction chunks with
  | nil => intro acc hacc p hp; exact hacc p (by simpa using hp)
  | cons c cs ih =>
    intro acc hacc p hp
    exact ih _ (collectBatch_entries hacc) p (by simpa using hp)

theorem foldl_collect_keys_mono (order : List String → List String)
    (outcome : String → EvalOutcome) (chunks : List (List String)) :
    ∀ acc k, k ∈ keys acc →
    k ∈ keys (chunks.foldl (fun a b => collectBatch outcome a (order b)) acc) := by
  induction chunks with
  | nil => intro acc k h; simpa using h
  | cons c cs ih =>
    intro acc k h
    exact ih _ k (collectBatch_keys_mono h)

theorem foldl_collect_keys_origin (order : List String → List String)
    (outcome : String → EvalOutcome) (chunks : List (List String)) :
    ∀ acc k,
    k ∈ keys (chunks.foldl (fun a b => collectBatch outcome a (order b)) acc) →
    k ∈ keys acc ∨ ∃ c ∈ chunks, k ∈ order c := by
  induction chunks with
  | nil => intro acc k h; exact Or.inl (by simpa using h)
  | cons c cs ih =>
    intro acc k h
    rcases ih _ k (by simpa using h) with h2 | h2
    · rcases collectBatch_keys_origin h2 with h3 | h3
      · exact Or.inl h3
      · exact Or.inr ⟨c, by simp, h3⟩
    · rcases h2 with ⟨c2, hc2, hk⟩
      exact Or.inr ⟨c2, List.mem_cons_of_mem _ hc2, hk⟩

theorem foldl_collect_mem (order : List String → List String)
    (outcome : String → EvalOutcome) (chunks : List (List String)) :
    ∀ acc k r c, c ∈ chunks → k ∈ order c → outcome k = .ok r →
    k ∈ keys (chunks.foldl (fun a b => collectBatch outcome a (order b)) acc) := by
  induction chunks with
  | nil => intro acc k r c hc; simp at hc
  | cons c2 cs ih =>
    intro acc k r c hc hk hout
    rcases List.mem_cons.mp hc with h | h
    · subst h
      exact foldl_collect_keys_mono order outcome cs _ k
        (collectBatch_mem_of_ok hk hout)
    · exact ih _ k r c h hk hout

theorem evalResultsMap_entries (order : List String → List String)
    (outcome : String → EvalOutcome) (plans : List (String × Plan)) :
    ∀ p ∈ evalResultsMap order outcome plans, outcome p.1 = .ok p.2 := by
  intro p hp
  exact foldl_collect_entries order outcome _ [] (by simp) p hp

theorem evalResultsMap_keys_subset (order : List String → List String)
    (outcome : String → EvalOutcome) (plans : List (String × Plan))
    (horder : ∀ b, ∀ x ∈ order b, x ∈ b) :
    ∀ k ∈ keys (evalResultsMap order outcome plans), k ∈ keys plans := by
  intro k hk
  rcases foldl_collect_keys_origin order outcome _ [] k hk with h | h
  · simp [keys] at h
  · rcases h with ⟨c, hc, hkc⟩
    exact mem_of_mem_chunkList hc k (horder c k hkc)

theorem evalResultsMap_mem_of_ok (order : List String → List String)
    (outcome : String → EvalOutcome) (plans : List (String × Plan))
    {name : String} {r : EvalResult}
    (horder : ∀ b, ∀ x ∈ b, x ∈ order b)
    (hname : name ∈ keys plans) (hout : outcome name = .ok r) :
    name ∈ keys (evalResultsMap order outcome plans) := by
  rcases exists_chunk_of_mem (k := 4) hname with ⟨c, hc, hnc⟩
  exact foldl_collect_mem order outcome _ [] name r c hc (horder c name hnc) hout

theorem evalResultsMap_not_mem (order : List String → List String)
    (outcome : String → EvalOutcome) (plans : List (String × Plan))
    {name : String} (hout : ∀ r, outcome name ≠ .ok r) :
    name ∉ keys (evalResultsMap order outcome plans) := by
  intro h
  rcases mem_keys_iff_exists.mp h with ⟨v, hv⟩
  exact hout v (evalResultsMap_entries order outcome plans (name, v) hv)

theorem maxByKeyAux_spec (key : α → Int) :
    ∀ (xs : List α) (best r : α), maxByKeyAux key best xs = r →
    (r = best ∧ ∀ y ∈ xs, key y ≤ key best) ∨
    (∃ l₁ l₂, xs = l₁ ++ r :: l₂ ∧ key best < key r ∧
      (∀ y ∈ l₁, key y < key r) ∧ (∀ y ∈ l₂, key y ≤ key r)) := by
  intro xs
  induction xs with
  | nil =>
    intro best r hr
    exact Or.inl ⟨hr.symm, by simp⟩
  | cons x xs ih =>
    intro best r hr
    by_cases h : key best < key x
    · rw [maxByKeyAux, if_pos h] at hr
      rcases ih x r hr with ⟨heq, hle⟩ | ⟨l₁, l₂, hsplit, hlt, hl₁, hl₂⟩
      · refine Or.inr ⟨[], xs, by rw [heq]; simp, heq ▸ h, by simp, ?_⟩
        intro y hy
        exact heq ▸ hle y hy
      · refine Or.inr ⟨x :: l₁, l₂, by rw [hsplit]; simp, lt_trans h hlt, ?_, hl₂⟩
        intro y hy
        rcases List.mem_cons.mp hy with h2 | h2
        · exact h2 ▸ hlt
        · exact hl₁ y h2
    · rw [maxByKeyAux, if_neg h] at hr
      rcases ih best r hr with ⟨heq, hle⟩ | ⟨l₁, l₂, hsplit, hlt, hl₁, hl₂⟩
      · refine Or.inl ⟨heq, ?_⟩
        intro y hy
        rcases List.mem_cons.mp hy with h2 | h2
        · exact h2 ▸ le_of_not_lt h
        · exact hle y h2
      · refine Or.inr ⟨x :: l₁, l₂, by rw [hsplit]; simp, hlt, ?_, hl₂⟩
        intro y hy
        rcases List.mem_cons.mp hy with h2 | h2
        · exact h2 ▸ lt_of_le_of_lt (le_of_not_lt h) hlt
        · exact hl₁ y h2

theorem maxByKey?_isFirstMax {key : α → Int} {l : List α} {m : α}
    (h : maxByKey? key l = some m) : IsFirstMaxBy key l m := by
  cases l with
  | nil => simp [maxByKey?] at h
  | cons x xs =>
    simp only [maxByKey?, Option.some.injEq] at h
    rcases maxByKeyAux_spec key xs x m h with ⟨heq, hle⟩ | ⟨l₁, l₂, hsplit, hlt, hl₁, hl₂⟩
    · refine ⟨[], xs, by rw [heq]; simp, by simp, ?_⟩
      intro y hy
      exact heq ▸ hle y hy
    · refine ⟨x :: l₁, l₂, by rw [hsplit]; simp, ?_, hl₂⟩
      intro y hy
      rcases List.mem_cons.mp hy with h2 | h2
      · exact h2 ▸ hlt
      · exact hl₁ y h2

theorem getLast?_take_six {l : List (String × EvalResult)} (h : 6 ≤ l.length) :
    (l.take 6).getLast? = l[5]? := by
  have h5 : 5 < l.length := by omega
  rw [List.take_succ, List.getElem?_eq_getElem h5]
  rw [show (some l[5]).toList = [l[5]] from rfl]
  rw [List.getLast?_concat]

theorem deepcopyRecords_fields (base : Nat) (l : List TaggedRecord) :
    (deepcopyRecords base l).map (·.fields) = l.map (·.fields) := by
  induction l generalizing base with
  | nil => simp [deepcopyRecords]
  | cons r rs ih => simp [deepcopyRecords, ih]

theorem deepcopyRecords_addr {base : Nat} {l : List TaggedRecord}
    {r : TaggedRecord} (h : r ∈ deepcopyRecords base l) :
    base ≤ r.addr ∧ r.addr < base + l.length := by
  induction l generalizing base with
  | nil => simp [deepcopyRecords] at h
  | cons s rs ih =>
    simp only [deepcopyRecords, List.mem_cons] at h
    rcases h with h | h
    · rw [h]
      simp
    · have := ih h
      simp only [List.length_cons]
      omega

theorem deepcopyRecords_get? :
    ∀ (l : List TaggedRecord) (b i : Nat),
    (deepcopyRecords b l)[i]? =
      (l[i]?).map (fun r => TaggedRecord.mk (b + i) r.fields) := by
  intro l
  induction l with
  | nil => intro b i; simp [deepcopyRecords]
  | cons r rs ih =>
    intro b i
    cases i with
    | zero => simp [deepcopyRecords]
    | succ j =>
      simp only [deepcopyRecords, List.getElem?_cons_succ, ih (b + 1) j]
      have harith : b + 1 + j = b + (j + 1) := by omega
      rw [harith]

theorem addMapOptIds_get? (u : Nat → String) :
    ∀ (l : List TaggedRecord) (k i : Nat),
    (addMapOptIds u k l)[i]? =
      (l[i]?).map
        (fun r => TaggedRecord.mk r.addr (dinsert r.fields "_map_opt_id" (u (k + i)))) := by
  intro l
  induction l with
  | nil => intro k i; simp [addMapOptIds]
  | cons r rs ih =>
    intro k i
    cases i with
    | zero => simp [addMapOptIds]
    | succ j =>
      simp only [addMapOptIds, List.getElem?_cons_succ, ih (k + 1) j]
      have harith : k + 1 + j = k + (j + 1) := by omega
      rw [harith]

theorem tagInputData_get? (u : Nat → String) (b : Nat)
    (input_data : List TaggedRecord) (i : Nat) :
    (tagInputData u b input_data)[i]? =
      (input_data[i]?).map
        (fun r => TaggedRecord.mk (b + i) (dinsert r.fields "_map_opt_id" (u i))) := by
  unfold tagInputData
  rw [addMapOptIds_get?, deepcopyRecords_get?]
  cases input_data[i]? <;> simp

theorem tagInputData_length (u : Nat → String) (b : Nat)
    (input_data : List TaggedRecord) :
    (tagInputData u b input_data).length = input_data.length := by
  have hd : ∀ (l : List TaggedRecord) (b2 : Nat),
      (deepcopyRecords b2 l).length = l.length := by
    intro l
    induction l with
    | nil => intro b2; simp [deepcopyRecords]
    | cons r rs ih => intro b2; simp [deepcopyRecords, ih]
  have ha : ∀ (l : List TaggedRecord) (k : Nat),
      (addMapOptIds u k l).length = l.length := by
    intro l
    induction l with
    | nil => intro k; simp [addMapOptIds]
    | cons r rs ih => intro k; simp [addMapOptIds, ih]
  unfold tagInputData
  rw [ha, hd]

theorem mem_submittedSamples {len0 : Nat} {s : List TaggedRecord} :
    ∀ {ns : List String} {b : Nat} {e : String × List TaggedRecord},
    e ∈ submittedSamples b len0 s ns →
    ∃ b2, b ≤ b2 ∧ e.2 = deepcopyRecords b2 s := by
  intro ns
  induction ns with
  | nil => intro b e h; simp [submittedSamples] at h
  | cons n ns ih =>
    intro b e h
    simp only [submittedSamples, List.mem_cons] at h
    rcases h with h | h
    · exact ⟨b, le_refl b, by rw [h]⟩
    · rcases ih h with ⟨b2, hb2, he⟩
      exact ⟨b2, by omega, he⟩

theorem submittedSamples_get? (len0 : Nat) (s : List TaggedRecord) :
    ∀ (ns : List String) (b i : Nat),
    (submittedSamples b len0 s ns)[i]? =
      (ns[i]?).map (fun n => (n, deepcopyRecords (b + i * len0) s)) := by
  intro ns
  induction ns with
  | nil => intro b i; simp [submittedSamples]
  | cons n ns ih =>
    intro b i
    cases i with
    | zero => simp [submittedSamples]
    | succ j =>
      simp only [submittedSamples, List.getElem?_cons_succ, ih (b + len0) j]
      have harith : b + len0 + j * len0 = b + (j + 1) * len0 := by ring
      rw [harith]

/-! Claim theorems. -/

/-- C1: Shortlisting is tie-complete: after sorting all surviving results by
score descending, the shortlist is the top 6 plans plus every plan beyond the
6th whose score exactly equals the 6th-place score; for the 7-plan example
with scores `[9,9,8,7,6,5,5]` the shortlist has size 7; and with fewer than 6
surviving plans the shortlist is exactly all surviving plans. -/
theorem C1_shortlist_tie_complete :
    (∀ results : List (String × EvalResult), results.length < 6 →
      filtered_results (sortByScoreDesc results) = sortByScoreDesc results ∧
      (filtered_results (sortByScoreDesc results)).Perm results) ∧
    (∀ sr : List (String × EvalResult), 6 ≤ sr.length →
      filtered_results sr = sr.take 6 ++ (sr.drop 6).filter
        (fun item => (sr[5]?.map (·.2.score)) == some item.2.score)) ∧
    (filtered_results (sortByScoreDesc ex7)).length = 7 := by
  refine ⟨?_, ?_, by rfl⟩
  · intro results h
    have hlen : (sortByScoreDesc results).length < 6 := by
      rw [length_sortByScoreDesc]; exact h
    have hts : (sortByScoreDesc results).take 6 = sortByScoreDesc results :=
      List.take_of_length_le (le_of_lt hlen)
    have hne : ¬((sortByScoreDesc results).length = 6) := by omega
    have heq : filtered_results (sortByScoreDesc results) = sortByScoreDesc results := by
      simp [filtered_results, hts, hne, List.drop_length]
    refine ⟨heq, ?_⟩
    rw [heq]
    exact perm_sortByScoreDesc results
  · intro sr h
    have h6 : (sr.take 6).length = 6 := by
      rw [List.length_take]; omega
    have hlast : (sr.take 6).getLast? = sr[5]? := getLast?_take_six h
    simp only [filtered_results, h6, if_pos, hlast]

/-- C1 witness: the small-results branch at a concrete 2-plan map and the
tie-completeness equation at the concrete 7-plan map. -/
theorem C1_shortlist_tie_complete_witness :
    (ex2.length < 6 ∧
      filtered_results (sortByScoreDesc ex2) = sortByScoreDesc ex2) ∧
    (6 ≤ ex7.length ∧
      filtered_results ex7 = ex7.take 6 ++ (ex7.drop 6).filter
        (fun item => (ex7[5]?.map (·.2.score)) == some item.2.score)) :=
  ⟨⟨by decide, (C1_shortlist_tie_complete.1 ex2 (by decide)).1⟩,
   ⟨by decide, C1_shortlist_tie_complete.2.1 ex7 (by decide)⟩⟩

/-- C2: when the improvement-gate assessment on the baseline reports that no
improvement is needed, optimize() terminates immediately and returns the
original configuration as a singleton plan, the baseline output and zero
cost, with no candidate generator, evaluation task or tournament invoked. -/
theorem C2_improvement_gate_short_circuit (env : Env) (op_config : OpConfig)
    (input_data : List TaggedRecord)
    (h : needsImprovement (env.assessOp op_config
        (tagInputData env.uuid env.freshBase input_data)
        (env.runOperation op_config (tagInputData env.uuid env.freshBase input_data))
        (env.genValidatorPrompt op_config
          (tagInputData env.uuid env.freshBase input_data)
          (env.runOperation op_config
            (tagInputData env.uuid env.freshBase input_data)))) = false) :
    optimize env op_config input_data =
      (.ok ([op_config],
          env.runOperation op_config (tagInputData env.uuid env.freshBase input_data),
          0),
        [.runBaseline, .genValidatorPrompt, .assessOperation]) := by
  simp only [optimize, h, if_pos, initialReduceOptimizerCost]

/-- C2 witness: a concrete environment whose assessment says
`needs_improvement: false` takes the short circuit. -/
theorem C2_improvement_gate_short_circuit_witness :
    needsImprovement (envGateFalse.assessOp cfg0
        (tagInputData envGateFalse.uuid envGateFalse.freshBase [rec0])
        (envGateFalse.runOperation cfg0
          (tagInputData envGateFalse.uuid envGateFalse.freshBase [rec0]))
        (envGateFalse.genValidatorPrompt cfg0
          (tagInputData envGateFalse.uuid envGateFalse.freshBase [rec0])
          (envGateFalse.runOperation cfg0
            (tagInputData envGateFalse.uuid envGateFalse.freshBase [rec0])))) = false ∧
    optimize envGateFalse cfg0 [rec0] =
      (.ok ([cfg0], [[("base", "out")]], 0),
        [.runBaseline, .genValidatorPrompt, .assessOperation]) :=
  ⟨rfl, by rw [C2_improvement_gate_short_circuit envGateFalse cfg0 [rec0] rfl]; rfl⟩

/-- C3 counterexample: in a run where the `no_change` evaluation task itself
raises, `no_change` is a requested plan but is absent from the results map,
and optimize() aborts with a `KeyError` instead of falling back to the
baseline — refuting "always present even when individual plan evaluations
fail". -/
theorem C3_counterexample :
    "no_change" ∈ keys plansC3 ∧
    dget? (evalResultsMap envC3.order envC3.outcome plansC3) "no_change" = none ∧
    (optimize envC3 cfg0 [rec0]).1 = .error "KeyError: no_change" :=
  ⟨by decide, by rfl, by rfl⟩

/-- C3 amended: the results map is always a subset of the requested plan
names, and `no_change` is present whenever its own evaluation task succeeds
(failures of other plans never remove it); when the `no_change` task itself
fails or times out, optimize() raises a KeyError instead. -/
theorem C3_results_subset_and_no_change
    (order : List String → List String) (outcome : String → EvalOutcome)
    (plans : List (String × Plan)) (horder : ∀ b, (order b).Perm b) :
    (∀ k ∈ keys (evalResultsMap order outcome plans), k ∈ keys plans) ∧
    (∀ r, outcome "no_change" = .ok r → "no_change" ∈ keys plans →
      "no_change" ∈ keys (evalResultsMap order outcome plans)) := by
  constructor
  · exact evalResultsMap_keys_subset order outcome plans
      (fun b x hx => ((horder b).mem_iff).mp hx)
  · intro r hout hmem
    exact evalResultsMap_mem_of_ok order outcome plans
      (fun b x hx => ((horder b).mem_iff).mpr hx) hmem hout

/-- C3 witness: with every task succeeding, `no_change` is present in the
results map built from a concrete plans dict. -/
theorem C3_results_subset_and_no_change_witness :
    "no_change" ∈ keys (evalResultsMap id baseEnv.outcome plansC3) :=
  (C3_results_subset_and_no_change id baseEnv.outcome plansC3
      (fun b => List.Perm.refl b)).2 ⟨1, 1, [[("o", "1")]]⟩ rfl (by decide)

/-- C4: an exception in a single plan's evaluation task is isolated: the
failing plan is absent from the results map, never present with partial
data (every recorded entry comes from a successful task), other plans with
successful tasks are still collected, and in the concrete all-fail-except-
`no_change` scenario optimize() still returns with the `no_change` plan as
winner. -/
theorem C4_per_task_exception_isolation :
    (∀ (order : List String → List String) (outcome : String → EvalOutcome)
        (plans : List (String × Plan)) (name msg : String),
        outcome name = .failed msg →
        name ∉ keys (evalResultsMap order outcome plans)) ∧
    (∀ (order : List String → List String) (outcome : String → EvalOutcome)
        (plans : List (String × Plan)) (name : String) (r : EvalResult),
        (∀ b, (order b).Perm b) → name ∈ keys plans → outcome name = .ok r →
        name ∈ keys (evalResultsMap order outcome plans)) ∧
    (∀ (order : List String → List String) (outcome : String → EvalOutcome)
        (plans : List (String × Plan)) (p : String × EvalResult),
        p ∈ evalResultsMap order outcome plans → outcome p.1 = .ok p.2) ∧
    (optimize envC4 cfg0 [rec0]).1 = .ok ([cfg0], [[("a", "b")]], 7) := by
  refine ⟨?_, ?_, ?_, by rfl⟩
  · intro order outcome plans name msg hout
    refine evalResultsMap_not_mem order outcome plans ?_
    intro r h
    rw [hout] at h
    cases h
  · intro order outcome plans name r horder hmem hout
    exact evalResultsMap_mem_of_ok order outcome plans
      (fun b x hx => ((horder b).mem_iff).mpr hx) hmem hout
  · intro order outcome plans p hp
    exact evalResultsMap_entries order outcome plans p hp

/-- C4 witness: under `envC4` the failing `improved_instructions` plan is
absent and the succeeding `no_change` plan is present. -/
theorem C4_per_task_exception_isolation_witness :
    "improved_instructions" ∉ keys (evalResultsMap id envC4.outcome plansC3) ∧
    "no_change" ∈ keys (evalResultsMap id envC4.outcome plansC3) :=
  ⟨C4_per_task_exception_isolation.1 id envC4.outcome plansC3
      "improved_instructions" "x" (by decide),
   C4_per_task_exception_isolation.2.1 id envC4.outcome plansC3
      "no_change" ⟨2, 4, [[("a", "b")]]⟩ (fun b => List.Perm.refl b)
      (by decide) (by decide)⟩

/-- C5: the claimed timeout abandonment is not implemented by the code:
`as_completed` (line 233) yields only finished futures, so
`future.result(timeout=self.timeout)` (line 236) can never raise
`TimeoutError` for a slow task and the line-238 skip branch is dead.
Concretely, the `slow` task runs 11 s against the default 10 s timeout,
yet its triple is awaited and recorded in `results` rather than the plan
being abandoned; and the collected results do not depend on the timeout
value at all. -/
theorem C5_timeout_not_enforced :
    ({} : MapOptimizerDefaults).timeout = 10 ∧
    slowTask.duration = 11 ∧ slowTask ∈ batchC5 ∧
    dget? (collectCompleted ({} : MapOptimizerDefaults).timeout []
        (asCompleted batchC5)) slowTask.name = some (EvalResult.mk 9 11 []) ∧
    (∀ (t1 t2 : Nat) (acc : List (String × EvalResult)) (l : List TaskExec),
        collectCompleted t1 acc l = collectCompleted t2 acc l) := by
  refine ⟨rfl, rfl, by simp [batchC5], by rfl, ?_⟩
  intro t1 t2 acc l
  induction l generalizing acc with
  | nil => rfl
  | cons t ts ih =>
    cases hr : t.result with
    | ok r => simp only [collectCompleted, hr, ih]
    | error m => simp only [collectCompleted, hr, ih]

/-- C6: winner selection: with more than one shortlisted plan, the pairwise
tournament runs over exactly the shortlist and the winner is the first plan
(in tally-map iteration order) with the maximum tally; with exactly one
shortlisted plan the tournament is skipped, every surviving plan gets a zero
tally and the sole shortlisted plan wins; with an empty shortlist the
first-seen globally highest-scored plan among all results wins. -/
theorem C6_winner_selection :
    (∀ (results : List (String × EvalResult))
        (T : List (String × EvalResult) → List (String × Int)),
        1 < (filtered_results (sortByScoreDesc results)).length →
        selectBestPlanName results T =
          (argmaxTally (T (filtered_results (sortByScoreDesc results))),
           T (filtered_results (sortByScoreDesc results)))) ∧
    (∀ (results : List (String × EvalResult))
        (T : List (String × EvalResult) → List (String × Int)),
        (filtered_results (sortByScoreDesc results)).length = 1 →
        ∃ f, filtered_results (sortByScoreDesc results) = [f] ∧
          selectBestPlanName results T =
            (some f.1, results.map (fun p => (p.1, (0 : Int))))) ∧
    (∀ (results : List (String × EvalResult))
        (T : List (String × EvalResult) → List (String × Int)),
        filtered_results (sortByScoreDesc results) = [] →
        selectBestPlanName results T =
          (argmaxByScore results, results.map (fun p => (p.1, (0 : Int))))) ∧
    (∀ (tally : List (String × Int)) (w : String), argmaxTally tally = some w →
        ∃ v l₁ l₂, tally = l₁ ++ (w, v) :: l₂ ∧
          (∀ p ∈ l₁, p.2 < v) ∧ (∀ p ∈ l₂, p.2 ≤ v)) := by
  refine ⟨?_, ?_, ?_, ?_⟩
  · intro results T h
    simp only [selectBestPlanName, if_pos h]
  · intro results T h
    match hfr : filtered_results (sortByScoreDesc results) with
    | [] => rw [hfr] at h; simp at h
    | f :: g :: fs => rw [hfr] at h; simp at h
    | [f] =>
      refine ⟨f, rfl, ?_⟩
      simp only [selectBestPlanName, hfr]
      simp
  · intro results T h
    simp only [selectBestPlanName, h]
    simp
  · intro tally w h
    simp only [argmaxTally, Option.map_eq_some'] at h
    rcases h with ⟨m, hm, hw⟩
    rcases maxByKey?_isFirstMax hm with ⟨l₁, l₂, hsplit, hl₁, hl₂⟩
    have hm2 : m = (w, m.2) := by
      rcases m with ⟨m1, m2⟩
      simp only at hw
      simp [hw]
    exact ⟨m.2, l₁, l₂, by rw [hsplit, ← hm2], hl₁, hl₂⟩

/-- C6 witness: the three branches and the first-seen-max characterisation
at concrete inputs (7 shortlisted plans; a single plan; an empty results
map; a tally with a tied maximum won by the first-seen entry). -/
theorem C6_winner_selection_witness :
    (1 < (filtered_results (sortByScoreDesc ex7)).length ∧
      selectBestPlanName ex7 (fun f => f.map (fun p => (p.1, 0))) =
        (some "p1", ex7.map (fun p => (p.1, 0)))) ∧
    (∃ f, filtered_results (sortByScoreDesc [("solo", mkER 1)]) = [f] ∧
      selectBestPlanName [("solo", mkER 1)] (fun f => f.map (fun p => (p.1, 0))) =
        (some f.1, [("solo", (0 : Int))])) ∧
    selectBestPlanName [] (fun f => f.map (fun p => (p.1, 0))) = (none, []) ∧
    (∃ v l₁ l₂, [("a", (2 : Int)), ("b", 5), ("c", 5)] = l₁ ++ ("b", v) :: l₂ ∧
      (∀ p ∈ l₁, p.2 < v) ∧ (∀ p ∈ l₂, p.2 ≤ v)) := by
  refine ⟨⟨by decide, ?_⟩, ?_, ?_, ?_⟩
  · rw [C6_winner_selection.1 ex7 (fun f => f.map (fun p => (p.1, 0))) (by decide)]
    rfl
  · rcases C6_winner_selection.2.1 [("solo", mkER 1)]
      (fun f => f.map (fun p => (p.1, 0))) (by decide) with ⟨f, hf, hsel⟩
    exact ⟨f, hf, by rw [hsel]; rfl⟩
  · rw [C6_winner_selection.2.2.1 [] (fun f => f.map (fun p => (p.1, 0))) (by decide)]
    rfl
  · exact C6_winner_selection.2.2.2 [("a", 2), ("b", 5), ("c", 5)] "b" (by decide)

theorem addr_ranges_disjoint {base L i j a : Nat} (hij : i ≠ j)
    (hi1 : base + i * L ≤ a) (hi2 : a < base + i * L + L)
    (hj1 : base + j * L ≤ a) (hj2 : a < base + j * L + L) : False := by
  rcases Nat.lt_or_ge i j with h | h
  · have hmul : (i + 1) * L ≤ j * L := Nat.mul_le_mul_right L h
    rw [Nat.succ_mul] at hmul
    generalize i * L = A at *
    generalize j * L = B at *
    omega
  · rcases Nat.lt_or_ge j i with h2 | h2
    · have hmul : (j + 1) * L ≤ i * L := Nat.mul_le_mul_right L h2
      rw [Nat.succ_mul] at hmul
      generalize i * L = A at *
      generalize j * L = B at *
      omega
    · exact hij (Nat.le_antisymm h h2).symm

/-- C7: the results entry for `no_change` after the splice carries the
synchronously measured baseline runtime `rt` (the `time.time()` difference
of lines 137-139, passed in by `optimize`), while its score and output come
from the pool-evaluated entry `r`; the pool-measured `r.runtime` is
discarded and never reported. -/
theorem C7_no_change_runtime_preserved (results : List (String × EvalResult))
    (rt : Int) (r : EvalResult) (h : dget? results "no_change" = some r) :
    spliceNoChange results rt =
      some (dinsert results "no_change" ⟨r.score, rt, r.output⟩) ∧
    dget? (dinsert results "no_change" ⟨r.score, rt, r.output⟩) "no_change" =
      some ⟨r.score, rt, r.output⟩ :=
  ⟨by simp [spliceNoChange, h], dget?_dinsert_self _ _ _⟩

/-- C7 witness: a concrete splice replacing a pool runtime of 9 with the
synchronous runtime 42. -/
theorem C7_no_change_runtime_preserved_witness :
    dget? [("no_change", EvalResult.mk 5 9 [])] "no_change" =
      some (EvalResult.mk 5 9 []) ∧
    spliceNoChange [("no_change", EvalResult.mk 5 9 [])] 42 =
      some [("no_change", EvalResult.mk 5 42 [])] :=
  ⟨rfl, by
    rw [(C7_no_change_runtime_preserved [("no_change", EvalResult.mk 5 9 [])] 42
      (EvalResult.mk 5 9 []) rfl).1]
    rfl⟩

/-- C8: each submitted evaluation task receives an independent deep copy of
the sample set: element-wise equal field content, no record instance shared
between two distinct tasks nor with the originally selected samples, and the
sample count is `min(5, len(input))`. -/
theorem C8_evaluation_samples_isolated_copies (base : Nat)
    (samples : List TaggedRecord) (names : List String) :
    (∀ e ∈ submitBatchSamples base samples names,
        e.2.map (·.fields) = samples.map (·.fields)) ∧
    (∀ (i j : Nat) (ei ej : String × List TaggedRecord), i ≠ j →
        (submitBatchSamples base samples names)[i]? = some ei →
        (submitBatchSamples base samples names)[j]? = some ej →
        ∀ r ∈ ei.2, ∀ s ∈ ej.2, r.addr ≠ s.addr) ∧
    ((∀ s ∈ samples, s.addr < base) →
        ∀ e ∈ submitBatchSamples base samples names, ∀ r ∈ e.2, ∀ s ∈ samples,
          r.addr ≠ s.addr) ∧
    (∀ l : List TaggedRecord, numEvaluations l = min 5 l.length) := by
  refine ⟨?_, ?_, ?_, fun l => rfl⟩
  · intro e he
    rcases mem_submittedSamples he with ⟨b2, hb2, he2⟩
    rw [he2, deepcopyRecords_fields]
  · intro i j ei ej hij hi hj r hr s hs
    rw [submitBatchSamples,
      submittedSamples_get? samples.length samples names base i] at hi
    rw [submitBatchSamples,
      submittedSamples_get? samples.length samples names base j] at hj
    rcases Option.map_eq_some'.mp hi with ⟨ni, hni, hei⟩
    rcases Option.map_eq_some'.mp hj with ⟨nj, hnj, hej⟩
    rw [← hei] at hr
    rw [← hej] at hs
    have hr2 := deepcopyRecords_addr hr
    have hs2 := deepcopyRecords_addr hs
    intro heq
    rw [heq] at hr2
    exact addr_ranges_disjoint hij hr2.1 hr2.2 hs2.1 hs2.2
  · intro hsmall e he r hr s hs
    rcases mem_submittedSamples he with ⟨b2, hb2, he2⟩
    rw [he2] at hr
    have hr2 := deepcopyRecords_addr hr
    have := hsmall s hs
    omega

/-- C8 witness: two concrete tasks over a one-record sample set receive
copies at disjoint addresses, both disjoint from the original record. -/
theorem C8_evaluation_samples_isolated_copies_witness :
    (0 ≠ 1 ∧
      (∀ r ∈ [TaggedRecord.mk 50 [("a", "1")]],
        ∀ s ∈ [TaggedRecord.mk 51 [("a", "1")]], r.addr ≠ s.addr)) ∧
    ((∀ s ∈ [TaggedRecord.mk 7 [("a", "1")]], s.addr < 50) ∧
      (∀ e ∈ submitBatchSamples 50 [TaggedRecord.mk 7 [("a", "1")]] ["x", "y"],
        ∀ r ∈ e.2, ∀ s ∈ [TaggedRecord.mk 7 [("a", "1")]], r.addr ≠ s.addr)) :=
  ⟨⟨by decide,
    (C8_evaluation_samples_isolated_copies 50 [TaggedRecord.mk 7 [("a", "1")]]
        ["x", "y"]).2.1 0 1
      ("x", [TaggedRecord.mk 50 [("a", "1")]])
      ("y", [TaggedRecord.mk 51 [("a", "1")]])
      (by decide) (by rfl) (by rfl)⟩,
   ⟨by decide,
    (C8_evaluation_samples_isolated_copies 50 [TaggedRecord.mk 7 [("a", "1")]]
        ["x", "y"]).2.2.1 (by decide)⟩⟩

/-- C9: a baseline assessment with no `needs_improvement` key at all is
treated as needing improvement (the dict-get default is `True`), so
optimize() proceeds to candidate generation; only an explicitly false-like
value takes the early return. -/
theorem C9_missing_needs_improvement_defaults_true :
    (∀ a : List (String × JVal), dget? a "needs_improvement" = none →
        needsImprovement a = true) ∧
    (∀ (a : List (String × JVal)) (v : JVal),
        dget? a "needs_improvement" = some v → needsImprovement a = v.truthy) ∧
    Event.genChunkSizePlans ∈ (optimize baseEnv cfg0 [rec0]).2 ∧
    (optimize envGateFalse cfg0 [rec0]).2 =
      [.runBaseline, .genValidatorPrompt, .assessOperation] := by
  refine ⟨?_, ?_, by decide, by rfl⟩
  · intro a h
    simp [needsImprovement, dgetD, h, JVal.truthy]
  · intro a v h
    simp [needsImprovement, dgetD, h]

/-- C9 witness: the empty assessment defaults to `true`; an explicit
`needs_improvement: false` evaluates to its own (false) truthiness. -/
theorem C9_missing_needs_improvement_defaults_true_witness :
    (dget? ([] : List (String × JVal)) "needs_improvement" = none ∧
      needsImprovement [] = true) ∧
    (dget? [("needs_improvement", JVal.bool false)] "needs_improvement" =
        some (JVal.bool false) ∧
      needsImprovement [("needs_improvement", JVal.bool false)] =
        (JVal.bool false).truthy) :=
  ⟨⟨rfl, C9_missing_needs_improvement_defaults_true.1 [] rfl⟩,
   ⟨rfl, C9_missing_needs_improvement_defaults_true.2.1
      [("needs_improvement", JVal.bool false)] (JVal.bool false) rfl⟩⟩

/-- C10: optimize() works on a deep copy of the caller's input: the internal
records sit at fresh addresses (disjoint from every caller record, so no
caller record is ever written to), each internal record's fields are the
original fields plus a `_map_opt_id` entry holding the per-record uuid, and
records with distinct uuids carry distinct `_map_opt_id` values. -/
theorem C10_caller_input_not_mutated (uuid : Nat → String) (base : Nat)
    (input_data : List TaggedRecord) :
    (tagInputData uuid base input_data).length = input_data.length ∧
    (∀ i : Nat, (tagInputData uuid base input_data)[i]? =
        (input_data[i]?).map
          (fun r => TaggedRecord.mk (base + i)
            (dinsert r.fields "_map_opt_id" (uuid i)))) ∧
    (∀ r ∈ tagInputData uuid base input_data, base ≤ r.addr) ∧
    ((∀ s ∈ input_data, s.addr < base) →
        ∀ r ∈ tagInputData uuid base input_data, ∀ s ∈ input_data,
          r.addr ≠ s.addr) ∧
    (∀ (i j : Nat) (ri rj : TaggedRecord), uuid i ≠ uuid j →
        (tagInputData uuid base input_data)[i]? = some ri →
        (tagInputData uuid base input_data)[j]? = some rj →
        dget? ri.fields "_map_opt_id" ≠ dget? rj.fields "_map_opt_id") := by
  have haddr : ∀ r ∈ tagInputData uuid base input_data, base ≤ r.addr := by
    intro r hr
    rcases List.mem_iff_getElem?.mp hr with ⟨i, hi⟩
    rw [tagInputData_get?] at hi
    rcases Option.map_eq_some'.mp hi with ⟨r0, hr0, hback⟩
    rw [← hback]
    exact Nat.le_add_right base i
  refine ⟨tagInputData_length uuid base input_data,
    fun i => tagInputData_get? uuid base input_data i, haddr, ?_, ?_⟩
  · intro hsmall r hr s hs
    have h1 := haddr r hr
    have h2 := hsmall s hs
    omega
  · intro i j ri rj huu hi hj
    rw [tagInputData_get?] at hi hj
    rcases Option.map_eq_some'.mp hi with ⟨r0, hr0, hbi⟩
    rcases Option.map_eq_some'.mp hj with ⟨s0, hs0, hbj⟩
    rw [← hbi, ← hbj]
    simp only [dget?_dinsert_self]
    intro hcontra
    exact huu (Option.some.injEq _ _ ▸ hcontra)

/-- C10 witness: tagging a two-record input yields records at fresh
addresses 100 and 101, disjoint from the caller's records, with distinct
`_map_opt_id` values. -/
theorem C10_caller_input_not_mutated_witness :
    ((∀ s ∈ [rec0, TaggedRecord.mk 1 []], s.addr < 100) ∧
      (∀ r ∈ tagInputData (fun i => toString i) 100 [rec0, TaggedRecord.mk 1 []],
        ∀ s ∈ [rec0, TaggedRecord.mk 1 []], r.addr ≠ s.addr)) ∧
    ((fun i => toString i) 0 ≠ (fun i => toString i) 1 ∧
      dget? (TaggedRecord.mk 100
          (dinsert rec0.fields "_map_opt_id" "0")).fields "_map_opt_id" ≠
        dget? (TaggedRecord.mk 101
          (dinsert ([] : FieldMap) "_map_opt_id" "1")).fields "_map_opt_id") :=
  ⟨⟨by decide,
    (C10_caller_input_not_mutated (fun i => toString i) 100
        [rec0, TaggedRecord.mk 1 []]).2.2.2.1 (by decide)⟩,
   ⟨by decide,
    (C10_caller_input_not_mutated (fun i => toString i) 100
        [rec0, TaggedRecord.mk 1 []]).2.2.2.2 0 1
      (TaggedRecord.mk 100 (dinsert rec0.fields "_map_opt_id" "0"))
      (TaggedRecord.mk 101 (dinsert ([] : FieldMap) "_map_opt_id" "1"))
      (by decide) (by rfl) (by rfl)⟩⟩

end MapOpt
